import Mathlib

/-!
# Verification of the embedded Sudoku puzzle engine

Shallow embedding of the 9×9 Sudoku generator/solver found in the
game-center component of the repository.  Grids are total functions
`Fin 9 → Fin 9 → Option Nat` (a cell holds a digit or is empty); the
in-place mutation of the source is modelled by explicit state passing, its
`Math.random()` draws by an explicit stream `rng : Nat → Nat` consumed at
an index, and the two source-level loops that only terminate
probabilistically (the do-while in `fillDiagonalBox` and the carving
while-loop in `generateSudoku`) by an explicit fuel parameter returning
`Option`.  The recursive backtracking solver is embedded with a fuel
parameter equal to its recursion depth; a theorem below shows fuel
`numEmpty b + 1` always suffices, so the total wrapper `solveSudoku` is
exact.
-/

set_option maxHeartbeats 4000000
set_option maxRecDepth 20000

namespace Sudoku

/-- A cell of the grid: `none` is the `null` of the source, `some d` a digit. -/
abbrev Cell := Option Nat

/-- A 9×9 grid, total over its index space (the `Board` type of the source). -/
abbrev Board := Fin 9 → Fin 9 → Cell

/-- Read `b[r][c]` with `Nat` indices; out-of-range reads (never performed
by the source on well-formed input) return the empty cell. -/
def get (b : Board) (r c : Nat) : Cell :=
  if h : r < 9 ∧ c < 9 then b ⟨r, h.1⟩ ⟨c, h.2⟩ else none

/-- Write `b[r][c] = v` with `Nat` indices (a no-op out of range). -/
def setc (b : Board) (r c : Nat) (v : Cell) : Board :=
  fun i j => if (i : Nat) = r ∧ (j : Nat) = c then v else b i j

/-- The all-empty grid (`Array(9).fill(null).map(() => Array(9).fill(null))`). -/
def emptyBoard : Board := fun _ _ => none

/-- Source `isSafe(b, row, col, num)`: `false` iff `num` occurs anywhere in
row `row`, column `col`, or the containing 3×3 box.  Note the scans include
the cell `(row, col)` itself. -/
def isSafe (b : Board) (row col num : Nat) : Bool :=
  ((List.range 9).all fun x =>
      !(get b row x == some num) && !(get b x col == some num)) &&
  ((List.range 3).all fun i => (List.range 3).all fun j =>
      !(get b (i + (row - row % 3)) (j + (col - col % 3)) == some num))

/-- The row-major scan for the first empty cell at the top of source
`solveSudoku`. -/
def findEmpty (b : Board) : Option (Nat × Nat) :=
  (List.range 9).findSome? fun i =>
    ((List.range 9).find? fun j => get b i j == none).map fun j => (i, j)

/-- Number of empty cells of a grid. -/
def numEmpty (b : Board) : Nat :=
  (Finset.univ.filter fun p : Fin 9 × Fin 9 => b p.1 p.2 = none).card

/-- Number of filled cells of a grid (clue count). -/
def numFilled (b : Board) : Nat :=
  (Finset.univ.filter fun p : Fin 9 × Fin 9 => b p.1 p.2 ≠ none).card

/-- The body of the source digit loop `for (num = 1; num <= 9; num++)`,
threading the grid state (`acc` is `(solvedFlag, current grid)`); `none`
signals solver fuel exhaustion (a modelling artifact shown unreachable
below). -/
def tryStep (recur : Board → Option (Bool × Board)) (r c : Nat)
    (acc : Option (Bool × Board)) (num : Nat) : Option (Bool × Board) :=
  match acc with
  | none => none
  | some (true, b2) => some (true, b2)
  | some (false, bcur) =>
    if isSafe bcur r c num then
      match recur (setc bcur r c (some num)) with
      | none => none
      | some (true, b2) => some (true, b2)
      | some (false, b2) => some (false, setc b2 r c none)
    else some (false, bcur)

/-- Source `solveSudoku`, fuel-indexed: find the first empty cell; if none
the grid is solved; otherwise try digits 1–9 in order, placing, recursing,
and undoing the placement when the recursive call fails. -/
def solveFuel : Nat → Board → Option (Bool × Board)
  | 0, _ => none
  | fuel + 1, b =>
    match findEmpty b with
    | none => some (true, b)
    | some (r, c) =>
      (List.range' 1 9).foldl (tryStep (solveFuel fuel) r c) (some (false, b))

/-- Source `solveSudoku` as a total function: returns the `(result, grid
after the call)` pair.  Fuel `numEmpty b + 1` is proved sufficient below,
so the default is never used. -/
def solveSudoku (b : Board) : Bool × Board :=
  (solveFuel (numEmpty b + 1) b).getD (false, b)

/-- Source `checkWin(current)`: every cell is filled and, with that cell
hypothetically emptied (the source copies row `i` and nulls `temp[i][j]`),
its own value is still a safe placement. -/
def checkWin (current : Board) : Bool :=
  (List.range 9).all fun i => (List.range 9).all fun j =>
    match get current i j with
    | none => false
    | some val => isSafe (setc current i j none) i j val

/-- Source `isSafeInBox(b, rowStart, colStart, num)`. -/
def isSafeInBox (b : Board) (rowStart colStart num : Nat) : Bool :=
  (List.range 3).all fun i => (List.range 3).all fun j =>
    !(get b (rowStart + i) (colStart + j) == some num)

/-- The source difficulty type (the union of the strings easy, medium, hard). -/
inductive Difficulty | easy | medium | hard
deriving DecidableEq

/-- The inline conditional of the source (easy to 30, medium to 45, else 56):
how many cells the carving loop clears. -/
def clearBudget : Difficulty → Nat
  | .easy => 30
  | .medium => 45
  | .hard => 56

/-- The do-while in `fillDiagonalBox`: draw `Math.floor(Math.random()*9)+1`
(modelled as `rng k % 9 + 1`) until `isSafeInBox` accepts it; fuel-bounded
rejection sampling returning the accepted digit and the next stream index. -/
def pickNum (b : Board) (start : Nat) (rng : Nat → Nat) :
    Nat → Nat → Option (Nat × Nat)
  | _, 0 => none
  | k, fuel + 1 =>
    let num := rng k % 9 + 1
    if isSafeInBox b start start num then some (num, k + 1)
    else pickNum b start rng (k + 1) fuel

/-- The nested `for i / for j` loops of `fillDiagonalBox`, iterating over the
nine box cells in row-major order. -/
def fillBoxCells (start : Nat) (rng : Nat → Nat) (fuel : Nat) :
    Board → Nat → List (Nat × Nat) → Option (Board × Nat)
  | b, k, [] => some (b, k)
  | b, k, (i, j) :: rest =>
    match pickNum b start rng k fuel with
    | none => none
    | some (num, k') =>
      fillBoxCells start rng fuel (setc b (start + i) (start + j) (some num)) k' rest

/-- The box cell offsets visited by the nested loops of `fillDiagonalBox`. -/
def boxCells : List (Nat × Nat) :=
  [(0,0),(0,1),(0,2),(1,0),(1,1),(1,2),(2,0),(2,1),(2,2)]

/-- Source `fillDiagonalBox(b, startRow)`. -/
def fillDiagonalBox (b : Board) (start : Nat) (rng : Nat → Nat)
    (k fuel : Nat) : Option (Board × Nat) :=
  fillBoxCells start rng fuel b k boxCells

/-- The carving while-loop of `generateSudoku`: while `count > 0`, pick a
random cell; if non-empty clear it and decrement, else retry (fuel-bounded,
since an adversarial stream never terminates it). -/
def carve (rng : Nat → Nat) : Nat → Board → Nat → Nat → Option (Board × Nat)
  | _, b, k, 0 => some (b, k)
  | 0, _, _, _ + 1 => none
  | fuel + 1, b, k, count + 1 =>
    let i := rng k % 9
    let j := rng (k + 1) % 9
    match get b i j with
    | some _ => carve rng fuel (setc b i j none) (k + 2) count
    | none => carve rng fuel b (k + 2) (count + 1)

/-- Source `generateSudoku(diff)`: seed the three diagonal boxes, run the
solver (its boolean result is discarded; `solved` is the grid state after
the call), deep-copy, and carve `clearBudget diff` cells.  Returns
`(solvedGrid, puzzleGrid)`. -/
def generateSudoku (diff : Difficulty) (rng : Nat → Nat) (fuel : Nat) :
    Option (Board × Board) :=
  match fillDiagonalBox emptyBoard 0 rng 0 fuel with
  | none => none
  | some (b1, k1) =>
    match fillDiagonalBox b1 3 rng k1 fuel with
    | none => none
    | some (b2, k2) =>
      match fillDiagonalBox b2 6 rng k2 fuel with
      | none => none
      | some (b3, k3) =>
        match carve rng fuel (solveSudoku b3).2 k3 (clearBudget diff) with
        | none => none
        | some (puzzle, _) => some ((solveSudoku b3).2, puzzle)

/-- Two cells share a constraint group: same row, same column, or same 3×3 box. -/
def sameGroup (r1 c1 r2 c2 : Nat) : Prop :=
  r1 = r2 ∨ c1 = c2 ∨ (r1 / 3 = r2 / 3 ∧ c1 / 3 = c2 / 3)

/-- No two distinct cells of a common group hold the same digit. -/
def Consistent (b : Board) : Prop :=
  ∀ r1 c1 r2 c2, r1 < 9 → c1 < 9 → r2 < 9 → c2 < 9 →
    (r1, c1) ≠ (r2, c2) → sameGroup r1 c1 r2 c2 →
    ∀ v, get b r1 c1 = some v → get b r2 c2 ≠ some v

/-- Every filled cell holds a digit in 1–9. -/
def ValuesIn (b : Board) : Prop :=
  ∀ r c v, get b r c = some v → 1 ≤ v ∧ v ≤ 9

/-- Build a grid from a 9×9 list-of-lists literal, `0` denoting empty. -/
def mkBoard (l : List (List Nat)) : Board := fun i j =>
  match (l.getD i.val []).getD j.val 0 with
  | 0 => none
  | n + 1 => some (n + 1)

/-- Every cell of the grid is filled. -/
def Complete (b : Board) : Prop := ∀ i, i < 9 → ∀ j, j < 9 → get b i j ≠ none

/-- Row `r` contains each digit 1–9 exactly once. -/
def RowPerm (b : Board) (r : Nat) : Prop :=
  ∀ d, 1 ≤ d → d ≤ 9 →
    (∃ c, c < 9 ∧ get b r c = some d) ∧
    (∀ c1 c2, c1 < 9 → c2 < 9 → get b r c1 = some d → get b r c2 = some d → c1 = c2)

/-- Column `c` contains each digit 1–9 exactly once. -/
def ColPerm (b : Board) (c : Nat) : Prop :=
  ∀ d, 1 ≤ d → d ≤ 9 →
    (∃ r, r < 9 ∧ get b r c = some d) ∧
    (∀ r1 r2, r1 < 9 → r2 < 9 → get b r1 c = some d → get b r2 c = some d → r1 = r2)

/-- The 3×3 box with corner `(3*br, 3*bc)` contains each digit 1–9 exactly once. -/
def BoxPerm (b : Board) (br bc : Nat) : Prop :=
  ∀ d, 1 ≤ d → d ≤ 9 →
    (∃ i j, i < 3 ∧ j < 3 ∧ get b (3 * br + i) (3 * bc + j) = some d) ∧
    (∀ i1 j1 i2 j2, i1 < 3 → j1 < 3 → i2 < 3 → j2 < 3 →
      get b (3 * br + i1) (3 * bc + j1) = some d →
      get b (3 * br + i2) (3 * bc + j2) = some d → i1 = i2 ∧ j1 = j2)

/-- No two distinct cells of the box with corner `(start, start)` hold the
same digit. -/
def BoxDistinct (b : Board) (start : Nat) : Prop :=
  ∀ i1 j1 i2 j2, i1 < 3 → j1 < 3 → i2 < 3 → j2 < 3 → (i1, j1) ≠ (i2, j2) →
    ∀ v, get b (start + i1) (start + j1) = some v →
      get b (start + i2) (start + j2) ≠ some v

/-- The filled cells are exactly the three diagonal 3×3 boxes. -/
def DiagSupport (b : Board) : Prop :=
  ∀ r c, get b r c ≠ none ↔ r < 9 ∧ c < 9 ∧ r / 3 = c / 3

/-- Executable grid comparison (used to discharge concrete hypotheses by
kernel computation). -/
def beqBoard (a b : Board) : Bool :=
  (List.range 9).all fun i => (List.range 9).all fun j => get a i j == get b i j

/-- Executable test that a concrete generation run returns the given pair. -/
def genTest (d : Difficulty) (rng : Nat → Nat) (fuel : Nat) (s p : Board) : Bool :=
  match generateSudoku d rng fuel with
  | none => false
  | some (s1, p1) => beqBoard s1 s && beqBoard p1 p

/-- The per-cell test of the `checkWin` loop body. -/
def cellCheck (g : Board) (i j : Nat) : Bool :=
  match get g i j with
  | none => false
  | some val => isSafe (setc g i j none) i j val

/-- The 81 cells visited by the nested loops of `checkWin`, in row-major order. -/
def allCells : List (Nat × Nat) :=
  (List.range 9).flatMap fun i => (List.range 9).map fun j => (i, j)

/-- The loop of `checkWin` as a fold over the visited cells (early exit on the
first failing cell, like the early `return false` of the source). -/
def checkWinGo (g : Board) : List (Nat × Nat) → Bool
  | [] => true
  | (i, j) :: rest => if cellCheck g i j then checkWinGo g rest else false

/-!
## Reference-semantics model of `checkWin`

The source builds `temp` by `[...current]` (a shallow copy: the nine row
references are shared), replaces row `i` by a fresh copy `[...current[i]]`,
and writes `temp[i][j] = null`.  Whether this mutates `current` is an
aliasing question, so we model JS arrays-of-arrays explicitly: an outer
array is a map from index to row id, and a heap maps row ids to row
contents; `next` is the next fresh id. -/
structure JSGrid where
  rows : Nat → Nat
  heap : Nat → Nat → Cell
  next : Nat

/-- The grid a JS 2D array denotes: read row id, then the cell. -/
def viewBoard (s : JSGrid) : Board := fun i j => s.heap (s.rows i.val) j.val

/-- The fresh row `[...current[i]]` after the write `temp[i][j] = null`. -/
def tempRow (s : JSGrid) (i j : Nat) : Nat → Cell :=
  fun j' => if j' = j then none else s.heap (s.rows i) j'

/-- The heap after allocating the fresh row at the fresh id `s.next`. -/
def heapAfter (s : JSGrid) (i j : Nat) : Nat → Nat → Cell :=
  fun id => if id = s.next then tempRow s i j else s.heap id

/-- The outer array of `temp = [...current]` after `temp[i]` is repointed to
the fresh row: every other index keeps the row reference of `current` (aliasing). -/
def tempRowIds (s : JSGrid) (i : Nat) : Nat → Nat :=
  fun i' => if i' = i then s.next else s.rows i'

/-- The grid `temp` denotes. -/
def allocTemp (s : JSGrid) (i j : Nat) : Board :=
  fun i' j' => heapAfter s i j (tempRowIds s i i'.val) j'.val

/-- The store after the iteration: the row references of `current` are untouched;
the heap has the one extra row. -/
def afterAlloc (s : JSGrid) (i j : Nat) : JSGrid :=
  ⟨s.rows, heapAfter s i j, s.next + 1⟩

/-- Source `checkWin` loop under reference semantics: for each visited cell, allocate the
fresh row copy with `(i,j)` nulled (`temp[i] = [...current[i]]; temp[i][j] =
null`), leave all other `temp` rows aliased to the rows of `current`, and run
`isSafe` on the `temp` view.  The store (with its allocations) is threaded. -/
def checkWinHeapGo : JSGrid → List (Nat × Nat) → Bool × JSGrid
  | s, [] => (true, s)
  | s, (i, j) :: rest =>
    match get (viewBoard s) i j with
    | none => (false, s)
    | some val =>
      if isSafe (allocTemp s i j) i j val then checkWinHeapGo (afterAlloc s i j) rest
      else (false, afterAlloc s i j)

/-- Source `checkWin` under reference semantics. -/
def checkWinHeap (s : JSGrid) : Bool × JSGrid := checkWinHeapGo s allCells

/-!
## Concrete inputs for witnesses
-/

/-- A random stream (as consumed draws) for a concrete generation run: 27
seed draws (each already box-safe, so the do-while accepts immediately)
followed by 56 distinct carve cells. -/
def wDraws : List Nat := [3, 1, 5, 8, 6, 7, 0, 2, 4, 4, 7, 8, 1, 2, 0, 5, 3, 6, 3, 2, 4, 7, 0, 1, 5, 6, 8, 6, 4, 6, 6, 7, 6, 3, 0, 3, 3, 8, 2, 5, 4, 7, 0, 5, 8, 5, 1, 2, 0, 5, 2, 0, 4, 5, 7, 5, 0, 8, 6, 2, 2, 8, 3, 7, 3, 4, 1, 8, 5, 3, 1, 3, 7, 7, 7, 6, 2, 4, 3, 2, 8, 4, 0, 7, 1, 7, 8, 6, 0, 0, 2, 2, 4, 6, 3, 8, 4, 2, 7, 1, 5, 0, 7, 1, 6, 0, 3, 0, 0, 5, 3, 3, 4, 6, 5, 4, 6, 0, 8, 2, 5, 4, 8, 7, 2, 4, 2, 3, 8, 0, 5, 8, 8, 2, 3, 4, 7, 1, 2]

/-- The stream function reading the draws. -/
def wRng (k : Nat) : Nat := wDraws.getD k 0

/-- The solved grid produced by the concrete run with `wRng`. -/
def wSolved : Board := mkBoard [
  [4, 2, 6, 1, 5, 3, 7, 9, 8],
  [9, 7, 8, 4, 2, 6, 1, 5, 3],
  [1, 3, 5, 7, 9, 8, 2, 4, 6],
  [2, 1, 4, 5, 8, 9, 3, 6, 7],
  [5, 6, 7, 2, 3, 1, 9, 8, 4],
  [3, 8, 9, 6, 4, 7, 5, 2, 1],
  [6, 9, 1, 8, 7, 2, 4, 3, 5],
  [7, 4, 3, 9, 6, 5, 8, 1, 2],
  [8, 5, 2, 3, 1, 4, 6, 7, 9]]

/-- The easy puzzle grid produced by the concrete run with `wRng`. -/
def wPuzzleEasy : Board := mkBoard [
  [4, 2, 6, 1, 0, 3, 7, 9, 8],
  [9, 7, 8, 4, 2, 6, 1, 5, 3],
  [0, 3, 0, 7, 9, 8, 2, 4, 0],
  [0, 0, 4, 0, 8, 9, 3, 0, 7],
  [0, 0, 7, 0, 3, 1, 9, 8, 4],
  [0, 0, 0, 6, 0, 7, 5, 0, 0],
  [6, 9, 0, 8, 0, 2, 0, 3, 5],
  [0, 0, 3, 0, 6, 5, 0, 0, 0],
  [8, 5, 0, 0, 1, 0, 0, 7, 9]]

/-- The hard puzzle grid produced by the concrete run with `wRng`. -/
def wPuzzleHard : Board := mkBoard [
  [0, 2, 0, 0, 0, 0, 7, 0, 0],
  [9, 7, 0, 4, 2, 0, 0, 5, 3],
  [0, 3, 0, 0, 0, 0, 2, 0, 0],
  [0, 0, 4, 0, 0, 9, 3, 0, 0],
  [0, 0, 0, 0, 3, 1, 0, 0, 0],
  [0, 0, 0, 0, 0, 7, 5, 0, 0],
  [0, 9, 0, 0, 0, 0, 0, 3, 5],
  [0, 0, 0, 0, 6, 5, 0, 0, 0],
  [8, 5, 0, 0, 0, 0, 0, 7, 0]]

/-- A completely filled but illegal grid (every cell `5`). -/
def wFull : Board := fun _ _ => some 5

/-- An unsolvable grid: row 0 is `1..8,_` and the 9 in column 8 blocks the
only remaining digit for the first empty cell `(0,8)`. -/
def gBad : Board := mkBoard [
  [1, 2, 3, 4, 5, 6, 7, 8, 0],
  [0, 0, 0, 0, 0, 0, 0, 0, 0],
  [0, 0, 0, 0, 0, 0, 0, 0, 0],
  [0, 0, 0, 0, 0, 0, 0, 0, 0],
  [0, 0, 0, 0, 0, 0, 0, 0, 0],
  [0, 0, 0, 0, 0, 0, 0, 0, 0],
  [0, 0, 0, 0, 0, 0, 0, 0, 0],
  [0, 0, 0, 0, 0, 0, 0, 0, 0],
  [0, 0, 0, 0, 0, 0, 0, 0, 9]]

/-- A grid whose only filled cell is `(0,0) = 5`. -/
def g5 : Board := setc emptyBoard 0 0 (some 5)

/-- A concrete valid JS store: rows `0..8` with distinct ids, all cells `5`. -/
def wStore : JSGrid := ⟨fun i => i, fun _ _ => some 5, 9⟩

/-!
## Basic cell access lemmas
-/

theorem get_fin (b : Board) (i j : Fin 9) : get b i.val j.val = b i j := by
  simp [get, i.isLt, j.isLt]

theorem get_oob {b : Board} {r c : Nat} (h : ¬(r < 9 ∧ c < 9)) : get b r c = none := by
  simp [get, h]

theorem get_setc_self {b : Board} {r c : Nat} (v : Cell) (hr : r < 9) (hc : c < 9) :
    get (setc b r c v) r c = v := by
  simp [get, setc, hr, hc]

theorem get_setc_ne {b : Board} {r c i j : Nat} (v : Cell) (h : ¬(i = r ∧ j = c)) :
    get (setc b r c v) i j = get b i j := by
  unfold get setc
  by_cases hij : i < 9 ∧ j < 9
  · simp only [hij, dif_pos]
    have : ¬((i : Nat) = r ∧ (j : Nat) = c) := h
    simp [this]
  · simp [hij]

theorem get_setc (b : Board) (r c i j : Nat) (v : Cell) :
    get (setc b r c v) i j =
      if i = r ∧ j = c ∧ i < 9 ∧ j < 9 then v else get b i j := by
  by_cases h : i = r ∧ j = c ∧ i < 9 ∧ j < 9
  · obtain ⟨h1, h2, h3, h4⟩ := h
    subst h1; subst h2
    simp [get_setc_self v h3 h4, h3, h4]
  · rw [if_neg h]
    by_cases hij : i < 9 ∧ j < 9
    · apply get_setc_ne
      intro hrc
      exact h ⟨hrc.1, hrc.2, hij.1, hij.2⟩
    · rw [get_oob hij, get_oob hij]

theorem setc_setc_same (b : Board) (r c : Nat) (v w : Cell) :
    setc (setc b r c v) r c w = setc b r c w := by
  funext i j
  simp only [setc]
  by_cases h : (i : Nat) = r ∧ (j : Nat) = c <;> simp [h]

theorem setc_none_of_get_none {b : Board} {r c : Nat} (h : get b r c = none) :
    setc b r c none = b := by
  funext i j
  simp only [setc]
  by_cases hij : (i : Nat) = r ∧ (j : Nat) = c
  · obtain ⟨h1, h2⟩ := hij
    have : get b r c = b i j := by
      rw [← h1, ← h2, get_fin]
    simp [← this, h]
  · simp [hij]

/-!
## `findEmpty` specification
-/

theorem findEmpty_eq_none_iff {b : Board} :
    findEmpty b = none ↔ ∀ i, i < 9 → ∀ j, j < 9 → get b i j ≠ none := by
  unfold findEmpty
  rw [List.findSome?_eq_none_iff]
  constructor
  · intro h i hi j hj hnone
    have := h i (by simpa using hi)
    rw [Option.map_eq_none'] at this
    rw [List.find?_eq_none] at this
    exact this j (by simpa using hj) (by simpa using hnone)
  · intro h i hi
    rw [Option.map_eq_none', List.find?_eq_none]
    intro j hj hget
    exact h i (by simpa using hi) j (by simpa using hj) (by simpa using hget)

theorem findEmpty_some {b : Board} {r c : Nat} (h : findEmpty b = some (r, c)) :
    r < 9 ∧ c < 9 ∧ get b r c = none := by
  unfold findEmpty at h
  rw [List.findSome?_eq_some_iff] at h
  obtain ⟨l1, a, l2, heq, hfa, -⟩ := h
  rw [Option.map_eq_some'] at hfa
  obtain ⟨j, hfind, hpair⟩ := hfa
  have ha : a ∈ List.range 9 := by
    rw [heq]
    exact List.mem_append_right l1 (List.mem_cons_self a l2)
  injection hpair with h1 h2
  subst h1; subst h2
  refine ⟨by simpa using ha, ?_, ?_⟩
  · simpa using List.mem_range.mp (List.mem_of_find?_eq_some hfind)
  · simpa using List.find?_some hfind

/-!
## Counting lemmas
-/

theorem numFilled_add_numEmpty (b : Board) : numFilled b + numEmpty b = 81 := by
  unfold numFilled numEmpty
  have hcongr : (Finset.univ.filter fun p : Fin 9 × Fin 9 => b p.1 p.2 = none) =
      (Finset.univ.filter fun p : Fin 9 × Fin 9 => ¬b p.1 p.2 ≠ none) := by
    apply Finset.filter_congr
    intro p _
    simp
  rw [hcongr, Finset.filter_card_add_filter_neg_card_eq_card
    (p := fun p : Fin 9 × Fin 9 => b p.1 p.2 ≠ none)]
  simp

theorem numEmpty_le_81 (b : Board) : numEmpty b ≤ 81 := by
  have := numFilled_add_numEmpty b
  omega

theorem numEmpty_setc_some_lt {b : Board} {r c num : Nat} (hr : r < 9) (hc : c < 9)
    (h : get b r c = none) : numEmpty (setc b r c (some num)) < numEmpty b := by
  unfold numEmpty
  apply Finset.card_lt_card
  rw [Finset.ssubset_iff_of_subset]
  · refine ⟨(⟨r, hr⟩, ⟨c, hc⟩), ?_, ?_⟩
    · simp only [Finset.mem_filter, Finset.mem_univ, true_and]
      rw [← get_fin b ⟨r, hr⟩ ⟨c, hc⟩]
      exact h
    · simp only [Finset.mem_filter, Finset.mem_univ, true_and]
      rw [← get_fin (setc b r c (some num)) ⟨r, hr⟩ ⟨c, hc⟩, get_setc_self _ hr hc]
      simp
  · intro p hp
    simp only [Finset.mem_filter, Finset.mem_univ, true_and] at hp ⊢
    rw [← get_fin (setc b r c (some num)) p.1 p.2] at hp
    rw [← get_fin b p.1 p.2]
    by_cases hprc : (p.1.val : Nat) = r ∧ (p.2.val : Nat) = c
    · rw [hprc.1, hprc.2, get_setc_self _ hr hc] at hp
      exact absurd hp (by simp)
    · rwa [get_setc_ne _ hprc] at hp

theorem numFilled_setc_none {b : Board} {r c : Nat} (hr : r < 9) (hc : c < 9)
    (h : get b r c ≠ none) : numFilled (setc b r c none) + 1 = numFilled b := by
  unfold numFilled
  have hsplit : (Finset.univ.filter fun p : Fin 9 × Fin 9 => b p.1 p.2 ≠ none) =
      insert ((⟨r, hr⟩ : Fin 9), (⟨c, hc⟩ : Fin 9))
        (Finset.univ.filter fun p : Fin 9 × Fin 9 => setc b r c none p.1 p.2 ≠ none) := by
    ext p
    simp only [Finset.mem_filter, Finset.mem_univ, true_and, Finset.mem_insert]
    constructor
    · intro hp
      by_cases hprc : (p.1.val : Nat) = r ∧ (p.2.val : Nat) = c
      · left
        have h1 : p.1 = (⟨r, hr⟩ : Fin 9) := Fin.ext hprc.1
        have h2 : p.2 = (⟨c, hc⟩ : Fin 9) := Fin.ext hprc.2
        rw [Prod.ext_iff]; exact ⟨h1, h2⟩
      · right
        rw [← get_fin b p.1 p.2] at hp
        rw [← get_fin (setc b r c none) p.1 p.2]
        rwa [get_setc_ne _ hprc]
    · intro hp
      rcases hp with hp | hp
      · rw [hp]
        rw [← get_fin b ⟨r, hr⟩ ⟨c, hc⟩]
        simpa using h
      · rw [← get_fin (setc b r c none) p.1 p.2] at hp
        rw [← get_fin b p.1 p.2]
        by_cases hprc : (p.1.val : Nat) = r ∧ (p.2.val : Nat) = c
        · rw [hprc.1, hprc.2, get_setc_self _ hr hc] at hp
          simp at hp
        · rwa [get_setc_ne _ hprc] at hp
  rw [hsplit, Finset.card_insert_of_not_mem]
  simp only [Finset.mem_filter, Finset.mem_univ, true_and, not_not]
  rw [← get_fin (setc b r c none) ⟨r, hr⟩ ⟨c, hc⟩]
  exact get_setc_self _ hr hc

/-!
## Solver lemmas: the digit-loop fold
-/

theorem solveFuel_succ (fuel : Nat) (b : Board) :
    solveFuel (fuel + 1) b =
      match findEmpty b with
      | none => some (true, b)
      | some (r, c) =>
        (List.range' 1 9).foldl (tryStep (solveFuel fuel) r c) (some (false, b)) := rfl

theorem foldl_tryStep_none (recur : Board → Option (Bool × Board)) (r c : Nat)
    (l : List Nat) : l.foldl (tryStep recur r c) none = none := by
  induction l with
  | nil => rfl
  | cons num l ih => simpa [tryStep] using ih

theorem foldl_tryStep_true (recur : Board → Option (Bool × Board)) (r c : Nat)
    (b2 : Board) (l : List Nat) :
    l.foldl (tryStep recur r c) (some (true, b2)) = some (true, b2) := by
  induction l with
  | nil => rfl
  | cons num l ih => simpa [tryStep] using ih

/-- Restoration along the digit loop: a `false` outcome leaves the grid as it
was when the loop began (each failed placement is undone). -/
theorem tryFold_false {fuel : Nat} {r c : Nat}
    (ihsolve : ∀ {b b2 : Board}, solveFuel fuel b = some (false, b2) → b2 = b) :
    ∀ (l : List Nat) (b b' : Board), get b r c = none →
      l.foldl (tryStep (solveFuel fuel) r c) (some (false, b)) = some (false, b') →
      b' = b := by
  intro l
  induction l with
  | nil =>
    intro b b' _ h
    have : b = b' := by simpa using h
    exact this.symm
  | cons num l ihl =>
    intro b b' hempty h
    rw [List.foldl_cons] at h
    by_cases hsafe : isSafe b r c num = true
    · cases hrec : solveFuel fuel (setc b r c (some num)) with
      | none =>
        simp only [tryStep, hsafe, if_true, hrec, foldl_tryStep_none] at h
        exact absurd h (by simp)
      | some p =>
        obtain ⟨flag, b2⟩ := p
        cases flag with
        | true =>
          simp only [tryStep, hsafe, if_true, hrec, foldl_tryStep_true] at h
          exact absurd h (by simp)
        | false =>
          simp only [tryStep, hsafe, if_true, hrec] at h
          have hb2 : b2 = setc b r c (some num) := ihsolve hrec
          rw [hb2, setc_setc_same, setc_none_of_get_none hempty] at h
          exact ihl b b' hempty h
    · simp only [tryStep, hsafe, if_false] at h
      exact ihl b b' hempty h

/-- Restoration: whenever the solver reports failure, the grid it hands back
is exactly the grid it was given. -/
theorem solveFuel_false : ∀ {fuel : Nat} {b b' : Board},
    solveFuel fuel b = some (false, b') → b' = b := by
  intro fuel
  induction fuel with
  | zero => intro b b' h; simp [solveFuel] at h
  | succ fuel ih =>
    intro b b' h
    simp only [solveFuel] at h
    cases hf : findEmpty b with
    | none =>
      rw [hf] at h
      exact absurd h (by simp)
    | some rc =>
      obtain ⟨r, c⟩ := rc
      rw [hf] at h
      obtain ⟨hr9, hc9, hempty⟩ := findEmpty_some hf
      exact tryFold_false (fun hx => ih hx) _ b b' hempty h

/-- Fuel sufficiency along the digit loop. -/
theorem tryFold_isSome {fuel : Nat} {r c : Nat} (hr : r < 9) (hc : c < 9)
    (ihsolve : ∀ {b : Board}, numEmpty b < fuel → (solveFuel fuel b).isSome = true) :
    ∀ (l : List Nat) (b : Board), get b r c = none → numEmpty b ≤ fuel →
      (l.foldl (tryStep (solveFuel fuel) r c) (some (false, b))).isSome = true := by
  intro l
  induction l with
  | nil => intro b _ _; simp
  | cons num l ihl =>
    intro b hempty hle
    rw [List.foldl_cons]
    by_cases hsafe : isSafe b r c num = true
    · have hlt : numEmpty (setc b r c (some num)) < fuel :=
        lt_of_lt_of_le (numEmpty_setc_some_lt hr hc hempty) hle
      have hsome := ihsolve hlt
      cases hrec : solveFuel fuel (setc b r c (some num)) with
      | none => rw [hrec] at hsome; simp at hsome
      | some p =>
        obtain ⟨flag, b2⟩ := p
        cases flag with
        | true =>
          simp only [tryStep, hsafe, if_true, hrec, foldl_tryStep_true]
          simp
        | false =>
          simp only [tryStep, hsafe, if_true, hrec]
          have hb2 : b2 = setc b r c (some num) := solveFuel_false hrec
          rw [hb2, setc_setc_same, setc_none_of_get_none hempty]
          exact ihl b hempty hle
    · simp only [tryStep, hsafe, if_false]
      exact ihl b hempty hle

/-- Fuel `numEmpty b + 1` always suffices: each recursive call is made on a
grid with strictly fewer empty cells. -/
theorem solveFuel_isSome : ∀ {fuel : Nat} {b : Board}, numEmpty b < fuel →
    (solveFuel fuel b).isSome = true := by
  intro fuel
  induction fuel with
  | zero => intro b h; omega
  | succ fuel ih =>
    intro b h
    simp only [solveFuel]
    cases hf : findEmpty b with
    | none => simp
    | some rc =>
      obtain ⟨r, c⟩ := rc
      obtain ⟨hr9, hc9, hempty⟩ := findEmpty_some hf
      exact tryFold_isSome hr9 hc9 (fun hb => ih hb) _ b hempty (by omega)

/-- Monotonicity along the digit loop. -/
theorem tryFold_mono {fuel : Nat} {r c : Nat}
    (ihsolve : ∀ {b : Board} {x : Bool × Board},
      solveFuel fuel b = some x → solveFuel (fuel + 1) b = some x) :
    ∀ (l : List Nat) (b : Board) (x : Bool × Board),
      l.foldl (tryStep (solveFuel fuel) r c) (some (false, b)) = some x →
      l.foldl (tryStep (solveFuel (fuel + 1)) r c) (some (false, b)) = some x := by
  intro l
  induction l with
  | nil => intro b x h; simpa using h
  | cons num l ihl =>
    intro b x h
    rw [List.foldl_cons] at h ⊢
    by_cases hsafe : isSafe b r c num = true
    · cases hrec : solveFuel fuel (setc b r c (some num)) with
      | none =>
        simp only [tryStep, hsafe, if_true, hrec, foldl_tryStep_none] at h
        exact absurd h (by simp)
      | some p =>
        have hrec2 := ihsolve hrec
        obtain ⟨flag, b2⟩ := p
        cases flag with
        | true =>
          simp only [tryStep, hsafe, if_true, hrec, foldl_tryStep_true] at h
          simp only [tryStep, hsafe, if_true, hrec2, foldl_tryStep_true]
          exact h
        | false =>
          simp only [tryStep, hsafe, if_true, hrec] at h
          simp only [tryStep, hsafe, if_true, hrec2]
          exact ihl _ x h
    · simp only [tryStep, hsafe, if_false] at h ⊢
      exact ihl b x h

/-- The solver answer is stable once the fuel is sufficient. -/
theorem solveFuel_mono : ∀ {fuel : Nat} {b : Board} {x : Bool × Board},
    solveFuel fuel b = some x → solveFuel (fuel + 1) b = some x := by
  intro fuel
  induction fuel with
  | zero => intro b x h; simp [solveFuel] at h
  | succ fuel ih =>
    intro b x h
    rw [solveFuel_succ] at h ⊢
    cases hf : findEmpty b with
    | none => rw [hf] at h; exact h
    | some rc =>
      obtain ⟨r, c⟩ := rc
      rw [hf] at h
      exact tryFold_mono (fun hx => ih hx) _ b x h

theorem solveFuel_le {f1 f2 : Nat} {b : Board} {x : Bool × Board} (h12 : f1 ≤ f2)
    (h : solveFuel f1 b = some x) : solveFuel f2 b = some x := by
  induction h12 with
  | refl => exact h
  | step _ ih => exact solveFuel_mono ih

theorem solveSudoku_eq (b : Board) :
    solveFuel (numEmpty b + 1) b = some (solveSudoku b) := by
  have h : (solveFuel (numEmpty b + 1) b).isSome = true := solveFuel_isSome (by omega)
  cases hx : solveFuel (numEmpty b + 1) b with
  | none => rw [hx] at h; simp at h
  | some x => unfold solveSudoku; rw [hx]; rfl

theorem solveFuel_stable {b : Board} {fuel : Nat} (h : numEmpty b < fuel) :
    solveFuel fuel b = solveFuel (numEmpty b + 1) b := by
  rw [solveSudoku_eq]
  exact solveFuel_le (by omega) (solveSudoku_eq b)

/-!
## `isSafe` characterization and consistency preservation
-/

theorem sameGroup_symm {r1 c1 r2 c2 : Nat} (h : sameGroup r1 c1 r2 c2) :
    sameGroup r2 c2 r1 c1 := by
  unfold sameGroup at h ⊢
  omega

/-- The scans of `isSafe` cover exactly the cells sharing a group with
`(r, c)` — including `(r, c)` itself. -/
theorem isSafe_eq_true_iff {b : Board} {r c num : Nat} (hr : r < 9) (hc : c < 9) :
    isSafe b r c num = true ↔
      ∀ i j, i < 9 → j < 9 → sameGroup r c i j → get b i j ≠ some num := by
  unfold isSafe
  rw [Bool.and_eq_true]
  simp only [List.all_eq_true, List.mem_range, Bool.and_eq_true, Bool.not_eq_true',
    beq_eq_false_iff_ne, ne_eq]
  constructor
  · rintro ⟨hrowcol, hbox⟩ i j hi hj hg
    rcases hg with hrow | hcol | ⟨hbr, hbc⟩
    · rw [← hrow]
      exact (hrowcol j hj).1
    · rw [← hcol]
      exact (hrowcol i hi).2
    · have hbx := hbox (i % 3) (by omega) (j % 3) (by omega)
      have h1 : i % 3 + (r - r % 3) = i := by omega
      have h2 : j % 3 + (c - c % 3) = j := by omega
      rwa [h1, h2] at hbx
  · intro hall
    refine ⟨fun x hx => ⟨?_, ?_⟩, fun a ha b0 hb0 => ?_⟩
    · exact hall r x hr hx (Or.inl rfl)
    · exact hall x c hx hc (Or.inr (Or.inl rfl))
    · refine hall (a + (r - r % 3)) (b0 + (c - c % 3)) (by omega) (by omega) ?_
      right; right
      constructor <;> omega

theorem consistent_setc {b : Board} {r c num : Nat} (hb : Consistent b)
    (hr : r < 9) (hc : c < 9) (hempty : get b r c = none)
    (hsafe : isSafe b r c num = true) : Consistent (setc b r c (some num)) := by
  have hno := (isSafe_eq_true_iff hr hc).mp hsafe
  intro r1 c1 r2 c2 h1 h2 h3 h4 hne hg v hv1
  by_cases e1 : r1 = r ∧ c1 = c
  · obtain ⟨er, ec⟩ := e1
    subst er; subst ec
    rw [get_setc_self _ hr hc] at hv1
    injection hv1 with hv
    subst hv
    have e2 : ¬(r2 = r1 ∧ c2 = c1) := by
      intro e2
      exact hne (by rw [e2.1, e2.2])
    rw [get_setc_ne _ e2]
    exact hno r2 c2 h3 h4 hg
  · rw [get_setc_ne _ e1] at hv1
    by_cases e2 : r2 = r ∧ c2 = c
    · obtain ⟨er, ec⟩ := e2
      subst er; subst ec
      rw [get_setc_self _ hr hc]
      intro hv2
      injection hv2 with hv
      subst hv
      exact hno r1 c1 h1 h2 (sameGroup_symm hg) hv1
    · rw [get_setc_ne _ e2]
      exact hb r1 c1 r2 c2 h1 h2 h3 h4 hne hg v hv1

theorem valuesIn_setc {b : Board} {r c num : Nat} (hb : ValuesIn b)
    (h1 : 1 ≤ num) (h9 : num ≤ 9) : ValuesIn (setc b r c (some num)) := by
  intro i j v hv
  rw [get_setc] at hv
  by_cases h : i = r ∧ j = c ∧ i < 9 ∧ j < 9
  · rw [if_pos h] at hv
    injection hv with hv
    omega
  · rw [if_neg h] at hv
    exact hb _ _ _ hv

/-- Solver success along the digit loop preserves the legality invariants. -/
theorem tryFold_true {fuel : Nat} {r c : Nat} (hr : r < 9) (hc : c < 9)
    (ihsolve : ∀ {b b' : Board}, solveFuel fuel b = some (true, b') →
      findEmpty b' = none ∧ (Consistent b → Consistent b') ∧ (ValuesIn b → ValuesIn b')) :
    ∀ (l : List Nat), (∀ n ∈ l, 1 ≤ n ∧ n ≤ 9) →
      ∀ (b b' : Board), get b r c = none →
        l.foldl (tryStep (solveFuel fuel) r c) (some (false, b)) = some (true, b') →
        findEmpty b' = none ∧ (Consistent b → Consistent b') ∧ (ValuesIn b → ValuesIn b') := by
  intro l
  induction l with
  | nil =>
    intro _ b b' _ h
    exact absurd h (by simp)
  | cons num l ihl =>
    intro hmem b b' hempty h
    rw [List.foldl_cons] at h
    by_cases hsafe : isSafe b r c num = true
    · cases hrec : solveFuel fuel (setc b r c (some num)) with
      | none =>
        simp only [tryStep, hsafe, if_true, hrec, foldl_tryStep_none] at h
        exact absurd h (by simp)
      | some p =>
        obtain ⟨flag, b2⟩ := p
        cases flag with
        | true =>
          simp only [tryStep, hsafe, if_true, hrec, foldl_tryStep_true] at h
          have hb' : b2 = b' := by simpa using h
          subst hb'
          obtain ⟨hcomp, hcons, hvals⟩ := ihsolve hrec
          refine ⟨hcomp, ?_, ?_⟩
          · intro hb
            exact hcons (consistent_setc hb hr hc hempty hsafe)
          · intro hv
            have hnum := hmem num (List.mem_cons_self num l)
            exact hvals (valuesIn_setc hv hnum.1 hnum.2)
        | false =>
          simp only [tryStep, hsafe, if_true, hrec] at h
          have hb2 : b2 = setc b r c (some num) := solveFuel_false hrec
          rw [hb2, setc_setc_same, setc_none_of_get_none hempty] at h
          exact ihl (fun n hn => hmem n (List.mem_cons_of_mem _ hn)) b b' hempty h
    · simp only [tryStep, hsafe, if_false] at h
      exact ihl (fun n hn => hmem n (List.mem_cons_of_mem _ hn)) b b' hempty h

/-- Solver success: the resulting grid is complete, and consistency and
value ranges carry over from the input grid (every digit placed by the
solver passed `isSafe` at placement time and lies in 1–9). -/
theorem solveFuel_true : ∀ {fuel : Nat} {b b' : Board},
    solveFuel fuel b = some (true, b') →
    findEmpty b' = none ∧ (Consistent b → Consistent b') ∧ (ValuesIn b → ValuesIn b') := by
  intro fuel
  induction fuel with
  | zero => intro b b' h; simp [solveFuel] at h
  | succ fuel ih =>
    intro b b' h
    rw [solveFuel_succ] at h
    cases hf : findEmpty b with
    | none =>
      rw [hf] at h
      have hb : b = b' := by simpa using h
      subst hb
      exact ⟨hf, fun hx => hx, fun hx => hx⟩
    | some rc =>
      obtain ⟨r, c⟩ := rc
      rw [hf] at h
      obtain ⟨hr9, hc9, hempty⟩ := findEmpty_some hf
      have hmem : ∀ n ∈ List.range' 1 9, 1 ≤ n ∧ n ≤ 9 := by
        intro n hn
        rw [List.mem_range'] at hn
        obtain ⟨i, hi, rfl⟩ := hn
        omega
      exact tryFold_true hr9 hc9 (fun hx => ih hx) _ hmem b b' hempty h

/-!
## From completeness + consistency to "each digit exactly once"
-/

theorem nine_perm {f : Fin 9 → Nat} (hran : ∀ x, 1 ≤ f x ∧ f x ≤ 9)
    (hinj : Function.Injective f) : ∀ d, 1 ≤ d → d ≤ 9 → ∃ x, f x = d := by
  intro d h1 h9
  have himg : Finset.univ.image f ⊆ Finset.Icc 1 9 := by
    intro y hy
    rw [Finset.mem_image] at hy
    obtain ⟨x, -, rfl⟩ := hy
    rw [Finset.mem_Icc]
    exact hran x
  have hcard : (Finset.univ.image f).card = 9 := by
    rw [Finset.card_image_of_injective _ hinj]
    simp
  have himg2 : Finset.univ.image f = Finset.Icc 1 9 :=
    Finset.eq_of_subset_of_card_le himg (by rw [hcard]; simp)
  have hd : d ∈ Finset.univ.image f := by
    rw [himg2, Finset.mem_Icc]
    exact ⟨h1, h9⟩
  rw [Finset.mem_image] at hd
  obtain ⟨x, -, hx⟩ := hd
  exact ⟨x, hx⟩

theorem rowPerm_of_valid {b : Board} (hcomp : Complete b) (hcons : Consistent b)
    (hvals : ValuesIn b) {r : Nat} (hr : r < 9) : RowPerm b r := by
  have hsome : ∀ x : Fin 9, get b r x.val = some ((get b r x.val).getD 0) := by
    intro x
    cases hg : get b r x.val with
    | none => exact absurd hg (hcomp r hr x.val x.isLt)
    | some v => simp
  set f : Fin 9 → Nat := fun x => (get b r x.val).getD 0 with hf
  have hran : ∀ x, 1 ≤ f x ∧ f x ≤ 9 := fun x => hvals r x.val (f x) (hsome x)
  have hinj : Function.Injective f := by
    intro x y hxy
    by_contra hne
    have hcell : (r, x.val) ≠ (r, y.val) := by
      intro hp
      injection hp with hp1 hp2
      exact hne (Fin.ext hp2)
    exact hcons r x.val r y.val hr x.isLt hr y.isLt hcell (Or.inl rfl) (f x)
      (hsome x) (hxy ▸ hsome y)
  intro d h1 h9
  constructor
  · obtain ⟨x, hx⟩ := nine_perm hran hinj d h1 h9
    exact ⟨x.val, x.isLt, hx ▸ hsome x⟩
  · intro c1 c2 hc1 hc2 hg1 hg2
    by_contra hne
    exact hcons r c1 r c2 hr hc1 hr hc2 (by simp [hne]) (Or.inl rfl) d hg1 hg2

theorem colPerm_of_valid {b : Board} (hcomp : Complete b) (hcons : Consistent b)
    (hvals : ValuesIn b) {c : Nat} (hc : c < 9) : ColPerm b c := by
  have hsome : ∀ x : Fin 9, get b x.val c = some ((get b x.val c).getD 0) := by
    intro x
    cases hg : get b x.val c with
    | none => exact absurd hg (hcomp x.val x.isLt c hc)
    | some v => simp
  set f : Fin 9 → Nat := fun x => (get b x.val c).getD 0 with hf
  have hran : ∀ x, 1 ≤ f x ∧ f x ≤ 9 := fun x => hvals x.val c (f x) (hsome x)
  have hinj : Function.Injective f := by
    intro x y hxy
    by_contra hne
    have hcell : (x.val, c) ≠ (y.val, c) := by
      intro hp
      injection hp with hp1 hp2
      exact hne (Fin.ext hp1)
    exact hcons x.val c y.val c x.isLt hc y.isLt hc hcell (Or.inr (Or.inl rfl)) (f x)
      (hsome x) (hxy ▸ hsome y)
  intro d h1 h9
  constructor
  · obtain ⟨x, hx⟩ := nine_perm hran hinj d h1 h9
    exact ⟨x.val, x.isLt, hx ▸ hsome x⟩
  · intro r1 r2 hr1 hr2 hg1 hg2
    by_contra hne
    exact hcons r1 c r2 c hr1 hc hr2 hc (by simp [hne]) (Or.inr (Or.inl rfl)) d hg1 hg2

theorem boxPerm_of_valid {b : Board} (hcomp : Complete b) (hcons : Consistent b)
    (hvals : ValuesIn b) {br bc : Nat} (hbr : br < 3) (hbc : bc < 3) :
    BoxPerm b br bc := by
  have hcoord : ∀ x : Fin 9, 3 * br + x.val / 3 < 9 ∧ 3 * bc + x.val % 3 < 9 := by
    intro x
    have := x.isLt
    omega
  have hsome : ∀ x : Fin 9, get b (3 * br + x.val / 3) (3 * bc + x.val % 3) =
      some ((get b (3 * br + x.val / 3) (3 * bc + x.val % 3)).getD 0) := by
    intro x
    cases hg : get b (3 * br + x.val / 3) (3 * bc + x.val % 3) with
    | none => exact absurd hg (hcomp _ (hcoord x).1 _ (hcoord x).2)
    | some v => simp
  set f : Fin 9 → Nat :=
    fun x => (get b (3 * br + x.val / 3) (3 * bc + x.val % 3)).getD 0 with hf
  have hran : ∀ x, 1 ≤ f x ∧ f x ≤ 9 := fun x => hvals _ _ (f x) (hsome x)
  have hinj : Function.Injective f := by
    intro x y hxy
    by_contra hne
    have hxy9 : x.val < 9 ∧ y.val < 9 := ⟨x.isLt, y.isLt⟩
    have hcell : (3 * br + x.val / 3, 3 * bc + x.val % 3) ≠
        (3 * br + y.val / 3, 3 * bc + y.val % 3) := by
      intro hp
      injection hp with hp1 hp2
      apply hne
      apply Fin.ext
      omega
    have hgrp : sameGroup (3 * br + x.val / 3) (3 * bc + x.val % 3)
        (3 * br + y.val / 3) (3 * bc + y.val % 3) := by
      right; right
      constructor <;> omega
    exact hcons _ _ _ _ (hcoord x).1 (hcoord x).2 (hcoord y).1 (hcoord y).2 hcell hgrp
      (f x) (hsome x) (hxy ▸ hsome y)
  intro d h1 h9
  constructor
  · obtain ⟨x, hx⟩ := nine_perm hran hinj d h1 h9
    exact ⟨x.val / 3, x.val % 3, by omega, by omega, hx ▸ hsome x⟩
  · intro i1 j1 i2 j2 hi1 hj1 hi2 hj2 hg1 hg2
    by_contra hne
    have hne2 : (3 * br + i1, 3 * bc + j1) ≠ (3 * br + i2, 3 * bc + j2) := by
      intro hp
      injection hp with hp1 hp2
      exact hne ⟨by omega, by omega⟩
    have hgrp : sameGroup (3 * br + i1) (3 * bc + j1) (3 * br + i2) (3 * bc + j2) := by
      right; right
      constructor <;> omega
    exact hcons _ _ _ _ (by omega) (by omega) (by omega) (by omega) hne2 hgrp d hg1 hg2

theorem numFilled_eq_81_of_complete {b : Board} (h : Complete b) : numFilled b = 81 := by
  unfold numFilled
  have : (Finset.univ.filter fun p : Fin 9 × Fin 9 => b p.1 p.2 ≠ none) = Finset.univ := by
    ext p
    simp only [Finset.mem_filter, Finset.mem_univ, true_and, iff_true]
    have := h p.1.val p.1.isLt p.2.val p.2.isLt
    rwa [get_fin] at this
  rw [this]
  simp

/-!
## Seeding lemmas: `pickNum`, `fillBoxCells`, the diagonal support
-/

theorem get_empty (r c : Nat) : get emptyBoard r c = none := by
  unfold get emptyBoard
  split <;> rfl

theorem isSafeInBox_eq_true_iff {b : Board} {rs cs num : Nat} :
    isSafeInBox b rs cs num = true ↔
      ∀ i j, i < 3 → j < 3 → get b (rs + i) (cs + j) ≠ some num := by
  unfold isSafeInBox
  simp only [List.all_eq_true, List.mem_range, Bool.not_eq_true', beq_eq_false_iff_ne, ne_eq]
  constructor
  · intro h i j hi hj
    exact h i hi j hj
  · intro h i hi j hj
    exact h i j hi hj

theorem pickNum_spec {b : Board} {start : Nat} {rng : Nat → Nat} :
    ∀ {fuel k num k' : Nat}, pickNum b start rng k fuel = some (num, k') →
      1 ≤ num ∧ num ≤ 9 ∧ isSafeInBox b start start num = true := by
  intro fuel
  induction fuel with
  | zero => intro k num k' h; simp [pickNum] at h
  | succ fuel ih =>
    intro k num k' h
    simp only [pickNum] at h
    by_cases hsafe : isSafeInBox b start start (rng k % 9 + 1) = true
    · rw [if_pos hsafe] at h
      injection h with h'
      injection h' with h1 h2
      subst h1
      refine ⟨by omega, by omega, hsafe⟩
    · rw [if_neg hsafe] at h
      exact ih h

theorem boxDistinct_setc {b : Board} {start i j num : Nat} (hb : BoxDistinct b start)
    (hsafe : isSafeInBox b start start num = true) :
    BoxDistinct (setc b (start + i) (start + j) (some num)) start := by
  have hno := isSafeInBox_eq_true_iff.mp hsafe
  intro i1 j1 i2 j2 h1 h2 h3 h4 hne v hv1
  rw [get_setc] at hv1
  rw [get_setc]
  by_cases e1 : start + i1 = start + i ∧ start + j1 = start + j ∧
      start + i1 < 9 ∧ start + j1 < 9
  · rw [if_pos e1] at hv1
    injection hv1 with hv
    subst hv
    by_cases e2 : start + i2 = start + i ∧ start + j2 = start + j ∧
        start + i2 < 9 ∧ start + j2 < 9
    · exfalso
      apply hne
      have : i1 = i2 ∧ j1 = j2 := by omega
      rw [this.1, this.2]
    · rw [if_neg e2]
      exact hno i2 j2 h3 h4
  · rw [if_neg e1] at hv1
    by_cases e2 : start + i2 = start + i ∧ start + j2 = start + j ∧
        start + i2 < 9 ∧ start + j2 < 9
    · rw [if_pos e2]
      intro hv2
      injection hv2 with hv
      subst hv
      exact hno i1 j1 h1 h2 hv1
    · rw [if_neg e2]
      exact hb i1 j1 i2 j2 h1 h2 h3 h4 hne v hv1

theorem fillBoxCells_frame {start : Nat} {rng : Nat → Nat} {fuel : Nat} :
    ∀ (L : List (Nat × Nat)) (b : Board) (k : Nat) {b' : Board} {k' : Nat},
      fillBoxCells start rng fuel b k L = some (b', k') →
      ∀ r c, (∀ ij ∈ L, ¬(r = start + ij.1 ∧ c = start + ij.2)) →
        get b' r c = get b r c := by
  intro L
  induction L with
  | nil =>
    intro b k b' k' h r c _
    simp only [fillBoxCells] at h
    injection h with h'
    injection h' with h1 h2
    rw [← h1]
  | cons ij L ihl =>
    obtain ⟨i, j⟩ := ij
    intro b k b' k' h r c hout
    simp only [fillBoxCells] at h
    cases hp : pickNum b start rng k fuel with
    | none => rw [hp] at h; exact absurd h (by simp)
    | some nk =>
      obtain ⟨num, k1⟩ := nk
      rw [hp] at h
      have hrest := ihl _ _ h r c fun ij hmem => hout ij (List.mem_cons_of_mem _ hmem)
      rw [hrest, get_setc_ne]
      intro hrc
      exact hout (i, j) (List.mem_cons_self _ _) ⟨hrc.1, hrc.2⟩

theorem fillBoxCells_boxDistinct {start : Nat} {rng : Nat → Nat} {fuel : Nat} :
    ∀ (L : List (Nat × Nat)) (b : Board) (k : Nat) {b' : Board} {k' : Nat},
      fillBoxCells start rng fuel b k L = some (b', k') →
      BoxDistinct b start → BoxDistinct b' start := by
  intro L
  induction L with
  | nil =>
    intro b k b' k' h hb
    simp only [fillBoxCells] at h
    injection h with h'
    injection h' with h1 h2
    rw [← h1]
    exact hb
  | cons ij L ihl =>
    obtain ⟨i, j⟩ := ij
    intro b k b' k' h hb
    simp only [fillBoxCells] at h
    cases hp : pickNum b start rng k fuel with
    | none => rw [hp] at h; exact absurd h (by simp)
    | some nk =>
      obtain ⟨num, k1⟩ := nk
      rw [hp] at h
      exact ihl _ _ h (boxDistinct_setc hb (pickNum_spec hp).2.2)

theorem fillBoxCells_valuesIn {start : Nat} {rng : Nat → Nat} {fuel : Nat} :
    ∀ (L : List (Nat × Nat)) (b : Board) (k : Nat) {b' : Board} {k' : Nat},
      fillBoxCells start rng fuel b k L = some (b', k') →
      ValuesIn b → ValuesIn b' := by
  intro L
  induction L with
  | nil =>
    intro b k b' k' h hb
    simp only [fillBoxCells] at h
    injection h with h'
    injection h' with h1 h2
    rw [← h1]
    exact hb
  | cons ij L ihl =>
    obtain ⟨i, j⟩ := ij
    intro b k b' k' h hb
    simp only [fillBoxCells] at h
    cases hp : pickNum b start rng k fuel with
    | none => rw [hp] at h; exact absurd h (by simp)
    | some nk =>
      obtain ⟨num, k1⟩ := nk
      rw [hp] at h
      obtain ⟨h1, h9, -⟩ := pickNum_spec hp
      exact ihl _ _ h (valuesIn_setc hb h1 h9)

theorem fillBoxCells_support {start : Nat} {rng : Nat → Nat} {fuel : Nat}
    (hstart : start + 2 < 9) :
    ∀ (L : List (Nat × Nat)), (∀ ij ∈ L, ij.1 < 3 ∧ ij.2 < 3) →
    ∀ (b : Board) (k : Nat) {b' : Board} {k' : Nat},
      fillBoxCells start rng fuel b k L = some (b', k') →
      ∀ r c, (get b' r c ≠ none ↔
        get b r c ≠ none ∨ ∃ ij ∈ L, r = start + ij.1 ∧ c = start + ij.2) := by
  intro L
  induction L with
  | nil =>
    intro _ b k b' k' h r c
    simp only [fillBoxCells] at h
    injection h with h'
    injection h' with h1 h2
    rw [← h1]
    simp
  | cons ij L ihl =>
    obtain ⟨i, j⟩ := ij
    intro hL b k b' k' h r c
    simp only [fillBoxCells] at h
    cases hp : pickNum b start rng k fuel with
    | none => rw [hp] at h; exact absurd h (by simp)
    | some nk =>
      obtain ⟨num, k1⟩ := nk
      rw [hp] at h
      have hij := hL (i, j) (List.mem_cons_self _ _)
      have hrest := ihl (fun ij hmem => hL ij (List.mem_cons_of_mem _ hmem)) _ _ h r c
      rw [hrest]
      constructor
      · rintro (hmid | ⟨ij', hmem, he⟩)
        · rw [get_setc] at hmid
          by_cases e : r = start + i ∧ c = start + j ∧ r < 9 ∧ c < 9
          · exact Or.inr ⟨(i, j), List.mem_cons_self _ _, e.1, e.2.1⟩
          · rw [if_neg e] at hmid
            exact Or.inl hmid
        · exact Or.inr ⟨ij', List.mem_cons_of_mem _ hmem, he⟩
      · rintro (hb | ⟨ij', hmem, he⟩)
        · left
          rw [get_setc]
          split
          · simp
          · exact hb
        · rcases List.mem_cons.mp hmem with he' | hmem'
          · left
            subst he'
            rw [get_setc, if_pos ⟨he.1, he.2, by omega, by omega⟩]
            simp
          · exact Or.inr ⟨ij', hmem', he⟩

/-- Apply `BoxDistinct` at absolute coordinates. -/
theorem boxDistinct_apply {b : Board} {start : Nat} (hb : BoxDistinct b start)
    {r1 c1 r2 c2 : Nat} (hr1 : start ≤ r1) (hr1' : r1 < start + 3)
    (hc1 : start ≤ c1) (hc1' : c1 < start + 3)
    (hr2 : start ≤ r2) (hr2' : r2 < start + 3)
    (hc2 : start ≤ c2) (hc2' : c2 < start + 3)
    (hne : (r1, c1) ≠ (r2, c2)) {v : Nat} (hv1 : get b r1 c1 = some v) :
    get b r2 c2 ≠ some v := by
  have hne' : (r1 - start, c1 - start) ≠ (r2 - start, c2 - start) := by
    intro hp
    injection hp with hp1 hp2
    apply hne
    have : r1 = r2 ∧ c1 = c2 := by omega
    rw [this.1, this.2]
  have := hb (r1 - start) (c1 - start) (r2 - start) (c2 - start)
    (by omega) (by omega) (by omega) (by omega) hne' v
  have e1 : start + (r1 - start) = r1 := by omega
  have e2 : start + (c1 - start) = c1 := by omega
  have e3 : start + (r2 - start) = r2 := by omega
  have e4 : start + (c2 - start) = c2 := by omega
  rw [e1, e2, e3, e4] at this
  exact this hv1

/-- A grid supported on the three diagonal boxes, with no duplicate inside
any of them, is globally consistent: any two cells of a common group that
are both on the diagonal support lie in the same diagonal box. -/
theorem consistent_of_diag {b : Board} (hsupp : DiagSupport b)
    (h0 : BoxDistinct b 0) (h3 : BoxDistinct b 3) (h6 : BoxDistinct b 6) :
    Consistent b := by
  intro r1 c1 r2 c2 hb1 hb2 hb3 hb4 hne hg v hv1 hv2
  have hs1 : r1 / 3 = c1 / 3 := by
    have := (hsupp r1 c1).mp (by rw [hv1]; simp)
    exact this.2.2
  have hs2 : r2 / 3 = c2 / 3 := by
    have := (hsupp r2 c2).mp (by rw [hv2]; simp)
    exact this.2.2
  have hbox : r1 / 3 = r2 / 3 ∧ c1 / 3 = c2 / 3 := by
    unfold sameGroup at hg
    omega
  have hcase : r1 / 3 = 0 ∨ r1 / 3 = 1 ∨ r1 / 3 = 2 := by omega
  rcases hcase with hc | hc | hc
  · exact boxDistinct_apply h0 (by omega) (by omega) (by omega) (by omega)
      (by omega) (by omega) (by omega) (by omega) hne hv1 hv2
  · exact boxDistinct_apply h3 (by omega) (by omega) (by omega) (by omega)
      (by omega) (by omega) (by omega) (by omega) hne hv1 hv2
  · exact boxDistinct_apply h6 (by omega) (by omega) (by omega) (by omega)
      (by omega) (by omega) (by omega) (by omega) hne hv1 hv2

theorem mem_boxCells {i j : Nat} (hi : i < 3) (hj : j < 3) : (i, j) ∈ boxCells := by
  have h : ∀ i < 3, ∀ j < 3, (i, j) ∈ boxCells := by decide
  exact h i hi j hj

theorem boxCells_bounds : ∀ ij ∈ boxCells, ij.1 < 3 ∧ ij.2 < 3 := by decide

theorem boxCells_cover {r c start : Nat} :
    (∃ ij ∈ boxCells, r = start + ij.1 ∧ c = start + ij.2) ↔
      (start ≤ r ∧ r < start + 3 ∧ start ≤ c ∧ c < start + 3) := by
  constructor
  · rintro ⟨⟨i, j⟩, hmem, hr, hc⟩
    have := boxCells_bounds (i, j) hmem
    simp only at this hr hc
    omega
  · intro hb
    exact ⟨(r - start, c - start), mem_boxCells (by omega) (by omega), by omega, by omega⟩

theorem seed_diagSupport {rng : Nat → Nat} {fuel : Nat}
    {b1 b2 b3 : Board} {k1 k2 k3 : Nat}
    (h1 : fillDiagonalBox emptyBoard 0 rng 0 fuel = some (b1, k1))
    (h2 : fillDiagonalBox b1 3 rng k1 fuel = some (b2, k2))
    (h3 : fillDiagonalBox b2 6 rng k2 fuel = some (b3, k3)) :
    DiagSupport b3 := by
  unfold fillDiagonalBox at h1 h2 h3
  intro r c
  have s1 := fillBoxCells_support (by omega) boxCells boxCells_bounds _ _ h1 r c
  have s2 := fillBoxCells_support (by omega) boxCells boxCells_bounds _ _ h2 r c
  have s3 := fillBoxCells_support (by omega) boxCells boxCells_bounds _ _ h3 r c
  rw [s3, s2, s1, boxCells_cover, boxCells_cover, boxCells_cover, get_empty]
  simp only [ne_eq, not_true_eq_false, false_or]
  omega

theorem boxDistinct_of_none {b : Board} {start : Nat}
    (h : ∀ i j, i < 3 → j < 3 → get b (start + i) (start + j) = none) :
    BoxDistinct b start := by
  intro i1 j1 i2 j2 h1 h2 h3 h4 hne v hv1
  rw [h i1 j1 h1 h2] at hv1
  exact absurd hv1 (by simp)

theorem boxDistinct_transfer {b b' : Board} {start : Nat}
    (h : ∀ i j, i < 3 → j < 3 →
      get b' (start + i) (start + j) = get b (start + i) (start + j))
    (hb : BoxDistinct b start) : BoxDistinct b' start := by
  intro i1 j1 i2 j2 h1 h2 h3 h4 hne v hv1
  rw [h i1 j1 h1 h2] at hv1
  rw [h i2 j2 h3 h4]
  exact hb i1 j1 i2 j2 h1 h2 h3 h4 hne v hv1

/-- All invariants of the seeded grid `b3`: filled exactly on the diagonal
boxes, consistent, digits in 1–9.  -/
theorem seed_facts {rng : Nat → Nat} {fuel : Nat}
    {b1 b2 b3 : Board} {k1 k2 k3 : Nat}
    (h1 : fillDiagonalBox emptyBoard 0 rng 0 fuel = some (b1, k1))
    (h2 : fillDiagonalBox b1 3 rng k1 fuel = some (b2, k2))
    (h3 : fillDiagonalBox b2 6 rng k2 fuel = some (b3, k3)) :
    DiagSupport b3 ∧ Consistent b3 ∧ ValuesIn b3 := by
  have hds := seed_diagSupport h1 h2 h3
  unfold fillDiagonalBox at h1 h2 h3
  have hvals : ValuesIn b3 := by
    refine fillBoxCells_valuesIn _ _ _ h3 ?_
    refine fillBoxCells_valuesIn _ _ _ h2 ?_
    refine fillBoxCells_valuesIn _ _ _ h1 ?_
    intro r c v hv
    rw [get_empty] at hv
    exact absurd hv (by simp)
  -- support of intermediate grids
  have supp1 : ∀ r c, get b1 r c ≠ none ↔ (r < 3 ∧ c < 3) := by
    intro r c
    rw [fillBoxCells_support (by omega) boxCells boxCells_bounds _ _ h1 r c,
      boxCells_cover, get_empty]
    simp only [ne_eq, not_true_eq_false, false_or]
    omega
  have supp2 : ∀ r c, get b2 r c ≠ none ↔ ((r < 3 ∧ c < 3) ∨
      (3 ≤ r ∧ r < 6 ∧ 3 ≤ c ∧ c < 6)) := by
    intro r c
    rw [fillBoxCells_support (by omega) boxCells boxCells_bounds _ _ h2 r c,
      boxCells_cover, supp1]
  -- box 0
  have hb1_0 : BoxDistinct b1 0 := by
    refine fillBoxCells_boxDistinct _ _ _ h1 ?_
    apply boxDistinct_of_none
    intro i j _ _
    exact get_empty _ _
  have hb2_0 : BoxDistinct b2 0 := by
    refine boxDistinct_transfer ?_ hb1_0
    intro i j hi hj
    refine fillBoxCells_frame _ _ _ h2 _ _ ?_
    intro ij hmem
    have := boxCells_bounds ij hmem
    omega
  have hb3_0 : BoxDistinct b3 0 := by
    refine boxDistinct_transfer ?_ hb2_0
    intro i j hi hj
    refine fillBoxCells_frame _ _ _ h3 _ _ ?_
    intro ij hmem
    have := boxCells_bounds ij hmem
    omega
  -- box 3
  have hb2_3 : BoxDistinct b2 3 := by
    refine fillBoxCells_boxDistinct _ _ _ h2 ?_
    apply boxDistinct_of_none
    intro i j hi hj
    by_contra hne
    have := (supp1 (3 + i) (3 + j)).mp hne
    omega
  have hb3_3 : BoxDistinct b3 3 := by
    refine boxDistinct_transfer ?_ hb2_3
    intro i j hi hj
    refine fillBoxCells_frame _ _ _ h3 _ _ ?_
    intro ij hmem
    have := boxCells_bounds ij hmem
    omega
  -- box 6
  have hb3_6 : BoxDistinct b3 6 := by
    refine fillBoxCells_boxDistinct _ _ _ h3 ?_
    apply boxDistinct_of_none
    intro i j hi hj
    by_contra hne
    have := (supp2 (6 + i) (6 + j)).mp hne
    omega
  exact ⟨hds, consistent_of_diag hds hb3_0 hb3_3 hb3_6, hvals⟩

theorem numFilled_of_diagSupport {b : Board} (h : DiagSupport b) :
    numFilled b = 27 := by
  unfold numFilled
  have hcongr : (Finset.univ.filter fun p : Fin 9 × Fin 9 => b p.1 p.2 ≠ none) =
      (Finset.univ.filter fun p : Fin 9 × Fin 9 => p.1.val / 3 = p.2.val / 3) := by
    apply Finset.filter_congr
    intro p _
    rw [← get_fin b p.1 p.2]
    rw [h p.1.val p.2.val]
    have h1 := p.1.isLt
    have h2 := p.2.isLt
    constructor
    · intro hx
      exact hx.2.2
    · intro hx
      exact ⟨h1, h2, hx⟩
  rw [hcongr]
  decide

/-!
## Carving lemmas
-/

theorem carve_count {rng : Nat → Nat} :
    ∀ (fuel : Nat) (b : Board) (k count : Nat) {b' : Board} {k' : Nat},
      carve rng fuel b k count = some (b', k') →
      numFilled b' + count = numFilled b := by
  intro fuel
  induction fuel with
  | zero =>
    intro b k count b' k' h
    cases count with
    | zero =>
      simp only [carve] at h
      injection h with h'
      injection h' with hb hk
      rw [← hb]
      omega
    | succ n => simp [carve] at h
  | succ fuel ih =>
    intro b k count b' k' h
    cases count with
    | zero =>
      simp only [carve] at h
      injection h with h'
      injection h' with hb hk
      rw [← hb]
      omega
    | succ n =>
      cases hg : get b (rng k % 9) (rng (k + 1) % 9) with
      | some v =>
        simp only [carve, hg] at h
        have hc := ih _ _ _ h
        have hn := numFilled_setc_none (b := b)
          (Nat.mod_lt _ (by omega)) (Nat.mod_lt _ (by omega)) (by rw [hg]; simp)
        omega
      | none =>
        simp only [carve, hg] at h
        have := ih _ _ _ h
        omega

theorem carve_subset {rng : Nat → Nat} :
    ∀ (fuel : Nat) (b : Board) (k count : Nat) {b' : Board} {k' : Nat},
      carve rng fuel b k count = some (b', k') →
      ∀ r c, get b' r c ≠ none → get b' r c = get b r c := by
  intro fuel
  induction fuel with
  | zero =>
    intro b k count b' k' h r c hne
    cases count with
    | zero =>
      simp only [carve] at h
      injection h with h'
      injection h' with hb hk
      rw [← hb]
    | succ n => simp [carve] at h
  | succ fuel ih =>
    intro b k count b' k' h r c hne
    cases count with
    | zero =>
      simp only [carve] at h
      injection h with h'
      injection h' with hb hk
      rw [← hb]
    | succ n =>
      cases hg : get b (rng k % 9) (rng (k + 1) % 9) with
      | some v =>
        simp only [carve, hg] at h
        have hsub := ih _ _ _ h r c hne
        by_cases hrc : r = rng k % 9 ∧ c = rng (k + 1) % 9
        · exfalso
          apply hne
          rw [hsub, hrc.1, hrc.2,
            get_setc_self _ (Nat.mod_lt _ (by omega)) (Nat.mod_lt _ (by omega))]
        · rw [hsub, get_setc_ne _ hrc]
      | none =>
        simp only [carve, hg] at h
        exact ih _ _ _ h r c hne

theorem clearBudget_ge_30 (d : Difficulty) : 30 ≤ clearBudget d := by
  cases d <;> simp [clearBudget]

/-!
## The generation invariant
-/

/-- Any `PuzzleInstance` actually returned by `generateSudoku` has a
complete, consistent solved grid: if the internal solve had failed, the grid
would have kept exactly its 27 seed clues, and the carving loop — which must
clear at least 30 distinct filled cells — could never have terminated. -/
theorem generate_inv {diff : Difficulty} {rng : Nat → Nat} {fuel : Nat} {s p : Board}
    (h : generateSudoku diff rng fuel = some (s, p)) :
    Complete s ∧ Consistent s ∧ ValuesIn s ∧ numFilled s = 81 ∧
    numFilled p + clearBudget diff = 81 ∧
    (∀ r c, get p r c ≠ none → get p r c = get s r c) := by
  unfold generateSudoku at h
  split at h
  · exact absurd h (by simp)
  rename_i b1 k1 h1
  split at h
  · exact absurd h (by simp)
  rename_i b2 k2 h2
  split at h
  · exact absurd h (by simp)
  rename_i b3 k3 h3
  split at h
  · exact absurd h (by simp)
  rename_i pz kz hc
  injection h with h'
  injection h' with hs hp
  subst hs
  subst hp
  obtain ⟨hds, hcons3, hvals3⟩ := seed_facts h1 h2 h3
  have h27 : numFilled b3 = 27 := numFilled_of_diagSupport hds
  have hsol := solveSudoku_eq b3
  cases hq : solveSudoku b3 with
  | mk flag bS =>
    rw [hq] at hsol
    rw [hq] at hc
    cases flag with
    | false =>
      exfalso
      have hrest : bS = b3 := solveFuel_false hsol
      have hcount := carve_count _ _ _ _ hc
      rw [hrest, h27] at hcount
      have := clearBudget_ge_30 diff
      omega
    | true =>
      obtain ⟨hfe, hcons, hvals⟩ := solveFuel_true hsol
      have hcomp : Complete bS := by
        rw [findEmpty_eq_none_iff] at hfe
        exact hfe
      have h81 : numFilled bS = 81 := numFilled_eq_81_of_complete hcomp
      have hcount := carve_count _ _ _ _ hc
      rw [h81] at hcount
      exact ⟨hcomp, hcons hcons3, hvals hvals3, h81, hcount,
        carve_subset _ _ _ _ hc⟩

/-!
## `checkWin` lemmas
-/

theorem cellCheck_eq_true_iff {g : Board} {i j : Nat} (hi : i < 9) (hj : j < 9) :
    cellCheck g i j = true ↔
      (get g i j ≠ none ∧ ∀ v, get g i j = some v →
        ∀ i' j', i' < 9 → j' < 9 → (i', j') ≠ (i, j) → sameGroup i j i' j' →
          get g i' j' ≠ some v) := by
  unfold cellCheck
  cases hg : get g i j with
  | none => simp
  | some val =>
    rw [isSafe_eq_true_iff hi hj]
    constructor
    · intro hall
      refine ⟨by simp, ?_⟩
      intro v hv i' j' hi' hj' hne hgrp
      injection hv with hv
      subst hv
      have hnij : ¬(i' = i ∧ j' = j) := by
        intro hij
        exact hne (by rw [hij.1, hij.2])
      have := hall i' j' hi' hj' hgrp
      rwa [get_setc_ne _ hnij] at this
    · rintro ⟨-, hother⟩ i' j' hi' hj' hgrp
      by_cases hne : (i', j') = (i, j)
      · injection hne with hne1 hne2
        subst hne1
        subst hne2
        rw [get_setc_self _ hi hj]
        simp
      · have hnij : ¬(i' = i ∧ j' = j) := by
          intro hij
          exact hne (by rw [hij.1, hij.2])
        rw [get_setc_ne _ hnij]
        exact hother val rfl i' j' hi' hj' hne hgrp

theorem checkWin_eq_true_iff (g : Board) :
    checkWin g = true ↔ ∀ i j, i < 9 → j < 9 → cellCheck g i j = true := by
  unfold checkWin cellCheck
  simp only [List.all_eq_true, List.mem_range]
  constructor
  · intro h i j hi hj
    exact h i hi j hj
  · intro h i hi j hj
    exact h i j hi hj

theorem checkWinGo_eq_true_iff (g : Board) :
    ∀ L : List (Nat × Nat), checkWinGo g L = true ↔
      ∀ ij ∈ L, cellCheck g ij.1 ij.2 = true := by
  intro L
  induction L with
  | nil => simp [checkWinGo]
  | cons ij L ih =>
    obtain ⟨i, j⟩ := ij
    simp only [checkWinGo]
    by_cases hcell : cellCheck g i j = true
    · rw [if_pos hcell, ih]
      constructor
      · intro h ij hmem
        rcases List.mem_cons.mp hmem with he | hmem'
        · subst he
          exact hcell
        · exact h ij hmem'
      · intro h ij hmem
        exact h ij (List.mem_cons_of_mem _ hmem)
    · rw [if_neg hcell]
      constructor
      · intro hf
        exact absurd hf (by simp)
      · intro hall
        exact absurd (hall (i, j) (List.mem_cons_self _ _)) hcell

theorem mem_allCells {i j : Nat} : (i, j) ∈ allCells ↔ i < 9 ∧ j < 9 := by
  unfold allCells
  simp only [List.mem_flatMap, List.mem_map, List.mem_range]
  constructor
  · rintro ⟨a, ha, b, hb, hab⟩
    injection hab with h1 h2
    subst h1
    subst h2
    exact ⟨ha, hb⟩
  · rintro ⟨hi, hj⟩
    exact ⟨i, hi, j, hj, rfl⟩

theorem checkWinGo_allCells (g : Board) : checkWinGo g allCells = checkWin g := by
  cases hcw : checkWin g with
  | true =>
    rw [(checkWinGo_eq_true_iff g allCells).mpr]
    intro ij hmem
    obtain ⟨hi, hj⟩ := mem_allCells.mp (by rwa [← Prod.mk.eta (p := ij)] at hmem)
    exact (checkWin_eq_true_iff g).mp hcw ij.1 ij.2 hi hj
  | false =>
    cases hgo : checkWinGo g allCells with
    | false => rfl
    | true =>
      exfalso
      have hall := (checkWinGo_eq_true_iff g allCells).mp hgo
      have : checkWin g = true := by
        rw [checkWin_eq_true_iff]
        intro i j hi hj
        exact hall (i, j) (mem_allCells.mpr ⟨hi, hj⟩)
      rw [this] at hcw
      exact absurd hcw (by simp)

/-!
## Reference-semantics (aliasing) lemmas for `checkWin`
-/

theorem allocTemp_eq (s : JSGrid) (hv : ∀ x, x < 9 → s.rows x < s.next)
    (i j : Nat) : allocTemp s i j = setc (viewBoard s) i j none := by
  funext i' j'
  unfold allocTemp heapAfter tempRowIds tempRow setc viewBoard
  by_cases hi' : (i' : Nat) = i
  · rw [if_pos hi', if_pos rfl]
    by_cases hj' : (j' : Nat) = j
    · rw [if_pos hj', if_pos ⟨hi', hj'⟩]
    · rw [if_neg hj', if_neg (fun hx => hj' hx.2), hi']
  · rw [if_neg hi']
    have hlt : s.rows i'.val < s.next := hv i'.val i'.isLt
    rw [if_neg (by omega), if_neg (fun hx => hi' hx.1)]

theorem viewBoard_afterAlloc (s : JSGrid) (hv : ∀ x, x < 9 → s.rows x < s.next)
    (i j : Nat) : viewBoard (afterAlloc s i j) = viewBoard s := by
  funext i' j'
  unfold afterAlloc viewBoard heapAfter
  have hlt : s.rows i'.val < s.next := hv i'.val i'.isLt
  simp only
  rw [if_neg (by omega)]

theorem afterAlloc_valid (s : JSGrid) (hv : ∀ x, x < 9 → s.rows x < s.next)
    (i j : Nat) : ∀ x, x < 9 → (afterAlloc s i j).rows x < (afterAlloc s i j).next := by
  intro x hx
  unfold afterAlloc
  simp only
  have := hv x hx
  omega

/-- The reference-semantics run of `checkWin` computes the same boolean as
the functional one and, because every write lands on the freshly allocated
row id, never changes the grid `current` denotes. -/
theorem checkWinHeapGo_spec :
    ∀ (L : List (Nat × Nat)) (s : JSGrid), (∀ x, x < 9 → s.rows x < s.next) →
      (checkWinHeapGo s L).1 = checkWinGo (viewBoard s) L ∧
      viewBoard (checkWinHeapGo s L).2 = viewBoard s := by
  intro L
  induction L with
  | nil => intro s hv; exact ⟨rfl, rfl⟩
  | cons ij L ih =>
    obtain ⟨i, j⟩ := ij
    intro s hv
    cases hg : get (viewBoard s) i j with
    | none =>
      simp only [checkWinHeapGo, checkWinGo, cellCheck, hg]
      simp
    | some val =>
      simp only [checkWinHeapGo, checkWinGo, cellCheck, hg]
      rw [allocTemp_eq s hv i j]
      by_cases hsafe : isSafe (setc (viewBoard s) i j none) i j val = true
      · rw [if_pos hsafe, if_pos hsafe]
        obtain ⟨hb, hview⟩ := ih (afterAlloc s i j) (afterAlloc_valid s hv i j)
        rw [viewBoard_afterAlloc s hv i j] at hb hview
        exact ⟨hb, hview⟩
      · rw [if_neg hsafe, if_neg hsafe]
        exact ⟨rfl, viewBoard_afterAlloc s hv i j⟩

/-!
## Executable discharge helpers for concrete runs
-/

theorem beqBoard_eq {a b : Board} (h : beqBoard a b = true) : a = b := by
  funext i j
  simp only [beqBoard, List.all_eq_true, List.mem_range, beq_iff_eq] at h
  have := h i.val i.isLt j.val j.isLt
  rwa [get_fin, get_fin] at this

theorem genTest_sound {d : Difficulty} {rng : Nat → Nat} {fuel : Nat} {s p : Board}
    (h : genTest d rng fuel s p = true) : generateSudoku d rng fuel = some (s, p) := by
  unfold genTest at h
  cases hg : generateSudoku d rng fuel with
  | none => rw [hg] at h; exact absurd h (by simp)
  | some q =>
    obtain ⟨s1, p1⟩ := q
    rw [hg] at h
    rw [Bool.and_eq_true] at h
    rw [beqBoard_eq h.1, beqBoard_eq h.2]

/-!
## The claims
-/

/-- C1: every `PuzzleInstance` actually returned by the generator has a
solved grid with no empty cells in which every row, every column and every
3×3 box contains each digit 1–9 exactly once.  (If the internal solve had
failed, the grid would still hold only its 27 seed clues and the carving
loop, which must clear at least 30 filled cells, could never return.) -/
theorem generate_solvedGrid_valid (diff : Difficulty) (rng : Nat → Nat) (fuel : Nat)
    (s p : Board) (h : generateSudoku diff rng fuel = some (s, p)) :
    (∀ i, i < 9 → ∀ j, j < 9 → get s i j ≠ none) ∧
    (∀ r, r < 9 → RowPerm s r) ∧
    (∀ c, c < 9 → ColPerm s c) ∧
    (∀ br bc, br < 3 → bc < 3 → BoxPerm s br bc) := by
  obtain ⟨hcomp, hcons, hvals, -, -, -⟩ := generate_inv h
  exact ⟨hcomp, fun r hr => rowPerm_of_valid hcomp hcons hvals hr,
    fun c hc => colPerm_of_valid hcomp hcons hvals hc,
    fun br bc hbr hbc => boxPerm_of_valid hcomp hcons hvals hbr hbc⟩

/-- Witness for C1 at a concrete generation run. -/
theorem generate_solvedGrid_valid_witness :
    generateSudoku .easy wRng 100 = some (wSolved, wPuzzleEasy) ∧
    ((∀ i, i < 9 → ∀ j, j < 9 → get wSolved i j ≠ none) ∧
     (∀ r, r < 9 → RowPerm wSolved r) ∧
     (∀ c, c < 9 → ColPerm wSolved c) ∧
     (∀ br bc, br < 3 → bc < 3 → BoxPerm wSolved br bc)) :=
  have hgen : generateSudoku .easy wRng 100 = some (wSolved, wPuzzleEasy) :=
    genTest_sound (by decide)
  ⟨hgen, generate_solvedGrid_valid .easy wRng 100 wSolved wPuzzleEasy hgen⟩

/-- C3: whenever the solver reports failure it hands back exactly the grid
it was given — at the top level (`solveSudoku`) and on every recursive
branch (`solveFuel`, any fuel); being a total function it also never
throws. -/
theorem solve_restores_on_failure (g : Board) :
    ((solveSudoku g).1 = false → (solveSudoku g).2 = g) ∧
    (∀ fuel b', solveFuel fuel g = some (false, b') → b' = g) := by
  constructor
  · intro hfail
    have h := solveSudoku_eq g
    cases hq : solveSudoku g with
    | mk flag b' =>
      rw [hq] at h hfail
      simp only at hfail
      subst hfail
      exact solveFuel_false h
  · intro fuel b' h
    exact solveFuel_false h

/-- Witness for C3 at a concrete unsolvable grid. -/
theorem solve_restores_on_failure_witness :
    (solveSudoku gBad).1 = false ∧ (solveSudoku gBad).2 = gBad :=
  ⟨by decide, (solve_restores_on_failure gBad).1 (by decide)⟩

/-- C4: `checkWin` returns true iff every cell is filled and, for every
cell, the grid with that cell hypothetically emptied has no other
occurrence of the value of that cell in its row, column or box; in particular it
returns false on any grid with an empty cell and on any grid with a
duplicate digit in a row, column or box. -/
theorem checkWin_characterization (g : Board) :
    (checkWin g = true ↔
      ((∀ i j, i < 9 → j < 9 → get g i j ≠ none) ∧
       (∀ i j v, i < 9 → j < 9 → get g i j = some v →
         ∀ i' j', i' < 9 → j' < 9 → (i', j') ≠ (i, j) → sameGroup i j i' j' →
           get g i' j' ≠ some v))) ∧
    (∀ i j, i < 9 → j < 9 → get g i j = none → checkWin g = false) ∧
    (∀ i1 j1 i2 j2 v, i1 < 9 → j1 < 9 → i2 < 9 → j2 < 9 → (i1, j1) ≠ (i2, j2) →
      sameGroup i1 j1 i2 j2 → get g i1 j1 = some v → get g i2 j2 = some v →
      checkWin g = false) := by
  have hiff : checkWin g = true ↔
      ((∀ i j, i < 9 → j < 9 → get g i j ≠ none) ∧
       (∀ i j v, i < 9 → j < 9 → get g i j = some v →
         ∀ i' j', i' < 9 → j' < 9 → (i', j') ≠ (i, j) → sameGroup i j i' j' →
           get g i' j' ≠ some v)) := by
    rw [checkWin_eq_true_iff]
    constructor
    · intro h
      constructor
      · intro i j hi hj
        exact ((cellCheck_eq_true_iff hi hj).mp (h i j hi hj)).1
      · intro i j v hi hj hv i' j' hi' hj' hne hgrp
        exact ((cellCheck_eq_true_iff hi hj).mp (h i j hi hj)).2 v hv i' j' hi' hj' hne hgrp
    · rintro ⟨hfill, hdup⟩ i j hi hj
      rw [cellCheck_eq_true_iff hi hj]
      exact ⟨hfill i j hi hj, fun v hv => hdup i j v hi hj hv⟩
  refine ⟨hiff, ?_, ?_⟩
  · intro i j hi hj hnone
    cases hcw : checkWin g with
    | false => rfl
    | true =>
      exact absurd hnone (by simpa using (hiff.mp hcw).1 i j hi hj)
  · intro i1 j1 i2 j2 v h1 h2 h3 h4 hne hgrp hv1 hv2
    cases hcw : checkWin g with
    | false => rfl
    | true =>
      exact absurd hv2
        ((hiff.mp hcw).2 i1 j1 v h1 h2 hv1 i2 j2 h3 h4 (fun hp => hne hp.symm) hgrp)

/-- Witness for C4: a duplicate in row 0 of the all-fives grid forces
`checkWin` to return false. -/
theorem checkWin_characterization_witness :
    ((0, 0) : Nat × Nat) ≠ (0, 1) ∧ get wFull 0 0 = some 5 ∧ get wFull 0 1 = some 5 ∧
    checkWin wFull = false :=
  ⟨by decide, by decide, by decide,
    (checkWin_characterization wFull).2.2 0 0 0 1 5 (by decide) (by decide) (by decide)
      (by decide) (by decide) (Or.inl rfl) (by decide) (by decide)⟩

/-- C5 counterexample: in the grid whose only filled cell is `(0,0) = 5`,
`isSafe` at `(0,0)` for digit 5 returns false even though 5 occurs in no
OTHER cell of row 0, column 0, or the corner box: the scans of the source count
the cell `(r,c)` itself, so the claimed self-exclusion does not hold. -/
theorem isSafe_counts_own_cell :
    isSafe g5 0 0 5 = false ∧
    (∀ i, i < 9 → ∀ j, j < 9 → ¬(i = 0 ∧ j = 0) → get g5 i j ≠ some 5) := by decide

/-- C5 (amended): `isSafe b r c num` (called `isPlacementLegal` in the spec) returns
false iff `num` occurs anywhere in row `r`, column `c`, or the containing
3×3 box — including at the cell `(r,c)` itself; self-exclusion is instead
achieved by the caller (`checkWin`) emptying the cell before the check.
`isSafe` only reads the grid, which the embedding reflects by making it a
pure function of the grid. -/
theorem isSafe_false_iff (b : Board) (r c num : Nat) (hr : r < 9) (hc : c < 9) :
    isSafe b r c num = false ↔
      ∃ i j, i < 9 ∧ j < 9 ∧ sameGroup r c i j ∧ get b i j = some num := by
  rw [← Bool.not_eq_true, isSafe_eq_true_iff hr hc]
  push_neg
  constructor
  · rintro ⟨i, j, hi, hj, hgrp, hv⟩
    exact ⟨i, j, hi, hj, hgrp, hv⟩
  · rintro ⟨i, j, hi, hj, hgrp, hv⟩
    exact ⟨i, j, hi, hj, hgrp, hv⟩

/-- Witness for the amended C5. -/
theorem isSafe_false_iff_witness :
    (0 : Nat) < 9 ∧
    (isSafe g5 0 0 5 = false ↔
      ∃ i j, i < 9 ∧ j < 9 ∧ sameGroup 0 0 i j ∧ get g5 i j = some 5) :=
  ⟨by decide, isSafe_false_iff g5 0 0 5 (by decide) (by decide)⟩

/-- C6: every returned puzzle grid has exactly `81 − clearBudget diff`
filled cells, and each of its filled cells agrees with the solved grid
(carving only removes values; in this pure embedding the returned solved
grid is by construction the grid the carve started from). -/
theorem generate_puzzle_clues (diff : Difficulty) (rng : Nat → Nat) (fuel : Nat)
    (s p : Board) (h : generateSudoku diff rng fuel = some (s, p)) :
    numFilled p = 81 - clearBudget diff ∧
    (∀ r c, get p r c ≠ none → get p r c = get s r c) := by
  obtain ⟨-, -, -, -, hcount, hsub⟩ := generate_inv h
  exact ⟨by omega, hsub⟩

/-- Witness for C6 at a concrete hard generation run. -/
theorem generate_puzzle_clues_witness :
    generateSudoku .hard wRng 100 = some (wSolved, wPuzzleHard) ∧
    numFilled wPuzzleHard = 81 - clearBudget .hard ∧
    (∀ r c, get wPuzzleHard r c ≠ none → get wPuzzleHard r c = get wSolved r c) :=
  have hgen : generateSudoku .hard wRng 100 = some (wSolved, wPuzzleHard) :=
    genTest_sound (by decide)
  ⟨hgen, (generate_puzzle_clues .hard wRng 100 wSolved wPuzzleHard hgen).1,
    (generate_puzzle_clues .hard wRng 100 wSolved wPuzzleHard hgen).2⟩

/-- C7: the difficulty mapping is the pure static lookup 30/45/56, and
consequently every returned easy puzzle has exactly 51 clues and every
returned hard puzzle exactly 25. -/
theorem clearBudget_spec :
    clearBudget .easy = 30 ∧ clearBudget .medium = 45 ∧ clearBudget .hard = 56 ∧
    (∀ rng fuel s p, generateSudoku .easy rng fuel = some (s, p) → numFilled p = 51) ∧
    (∀ rng fuel s p, generateSudoku .hard rng fuel = some (s, p) → numFilled p = 25) := by
  refine ⟨rfl, rfl, rfl, ?_, ?_⟩
  · intro rng fuel s p h
    obtain ⟨-, -, -, -, hcount, -⟩ := generate_inv h
    simp only [clearBudget] at hcount
    omega
  · intro rng fuel s p h
    obtain ⟨-, -, -, -, hcount, -⟩ := generate_inv h
    simp only [clearBudget] at hcount
    omega

/-- Witness for C7 at concrete easy and hard runs. -/
theorem clearBudget_spec_witness :
    generateSudoku .easy wRng 100 = some (wSolved, wPuzzleEasy) ∧
    generateSudoku .hard wRng 100 = some (wSolved, wPuzzleHard) ∧
    numFilled wPuzzleEasy = 51 ∧ numFilled wPuzzleHard = 25 :=
  have hgenE : generateSudoku .easy wRng 100 = some (wSolved, wPuzzleEasy) :=
    genTest_sound (by decide)
  have hgenH : generateSudoku .hard wRng 100 = some (wSolved, wPuzzleHard) :=
    genTest_sound (by decide)
  ⟨hgenE, hgenH, clearBudget_spec.2.2.2.1 wRng 100 wSolved wPuzzleEasy hgenE,
    clearBudget_spec.2.2.2.2 wRng 100 wSolved wPuzzleHard hgenH⟩

/-- C8: the solver terminates on every grid with recursion depth bounded by
the number of empty cells (at most 81): fuel `numEmpty g + 1` — one level
per empty cell plus the final completeness check — always yields an answer,
and any larger fuel yields the same answer. -/
theorem solveSudoku_terminates (g : Board) :
    numEmpty g ≤ 81 ∧ (solveFuel (numEmpty g + 1) g).isSome = true ∧
    (∀ fuel, numEmpty g < fuel → solveFuel fuel g = solveFuel (numEmpty g + 1) g) := by
  exact ⟨numEmpty_le_81 g, solveFuel_isSome (by omega), fun fuel h => solveFuel_stable h⟩

/-- Witness for C8. -/
theorem solveSudoku_terminates_witness :
    numEmpty wFull ≤ 81 ∧ (solveFuel (numEmpty wFull + 1) wFull).isSome = true ∧
    solveFuel 5 wFull = solveFuel (numEmpty wFull + 1) wFull :=
  ⟨(solveSudoku_terminates wFull).1, (solveSudoku_terminates wFull).2.1,
    (solveSudoku_terminates wFull).2.2 5 (by decide)⟩

/-- C9: on any completely filled grid — legal or not — the solver finds no
empty cell and immediately returns true with the grid untouched; already
filled cells are never validated. -/
theorem solveSudoku_full_grid (g : Board)
    (h : ∀ i, i < 9 → ∀ j, j < 9 → get g i j ≠ none) :
    solveSudoku g = (true, g) := by
  have hfe : findEmpty g = none := findEmpty_eq_none_iff.mpr h
  have h2 := solveSudoku_eq g
  rw [solveFuel_succ, hfe] at h2
  injection h2 with h3
  exact h3.symm

/-- Witness for C9: the all-fives grid is full but violates every
constraint, yet the solver returns `(true, unchanged)` — and `checkWin`
rejects it, showing that a true result of the solver is not a legality verdict. -/
theorem solveSudoku_full_grid_witness :
    (∀ i, i < 9 → ∀ j, j < 9 → get wFull i j ≠ none) ∧
    solveSudoku wFull = (true, wFull) ∧ checkWin wFull = false :=
  ⟨by decide, solveSudoku_full_grid wFull (by decide), by decide⟩

/-- C10: under reference semantics, `checkWin` never changes the grid its
argument denotes — every write lands in the freshly allocated row copy, and
the rows of `current` (which `temp` aliases) are only read — and it computes
the same boolean as the functional `checkWin`. -/
theorem checkWin_no_mutation (s : JSGrid)
    (hv : ∀ x, x < 9 → s.rows x < s.next) :
    viewBoard (checkWinHeap s).2 = viewBoard s ∧
    (checkWinHeap s).1 = checkWin (viewBoard s) := by
  obtain ⟨hb, hview⟩ := checkWinHeapGo_spec allCells s hv
  unfold checkWinHeap
  exact ⟨hview, by rw [hb, checkWinGo_allCells]⟩

/-- Witness for C10 at a concrete valid store. -/
theorem checkWin_no_mutation_witness :
    (∀ x, x < 9 → wStore.rows x < wStore.next) ∧
    viewBoard (checkWinHeap wStore).2 = viewBoard wStore ∧
    (checkWinHeap wStore).1 = checkWin (viewBoard wStore) :=
  ⟨by decide, (checkWin_no_mutation wStore (by decide)).1,
    (checkWin_no_mutation wStore (by decide)).2⟩

end Sudoku
